import Mathlib

/-!
# Verification of the tddai convergence loop and response extraction

Shallow embedding of the tddai sources (`src/index.ts`, `src/ai.ts`) in Lean 4.
Strings are modelled as `List Char`; JavaScript string primitives
(`indexOf`, `lastIndexOf`, `substring`, `trimStart`, `trim`) are embedded
with their JavaScript semantics (in particular `substring` clamps negative
indices to 0 and swaps its arguments when start exceeds end).
-/

namespace Tddai

/-- Predicate `headMatch pat s` is true iff `pat` occurs at the very beginning of `s`. -/
def headMatch : List Char → List Char → Bool
  | [], _ => true
  | _ :: _, [] => false
  | p :: ps, c :: cs => p == c && headMatch ps cs

/-- Smallest index `i` such that `pat` occurs in `s` at position `i`
(compare JavaScript `String.prototype.indexOf`). -/
def idxOf? (pat : List Char) : List Char → Option Nat
  | [] => if headMatch pat [] then some 0 else none
  | c :: cs => if headMatch pat (c :: cs) then some 0 else (idxOf? pat cs).map (· + 1)

/-- Largest index `i` such that `pat` occurs in `s` at position `i`
(compare JavaScript `String.prototype.lastIndexOf`). -/
def lastIdxOf? (pat : List Char) : List Char → Option Nat
  | [] => if headMatch pat [] then some 0 else none
  | c :: cs =>
    match lastIdxOf? pat cs with
    | some i => some (i + 1)
    | none => if headMatch pat (c :: cs) then some 0 else none

/-- JavaScript `indexOf`: first occurrence index, or `-1` when absent. -/
def jsIndexOf (s pat : List Char) : Int :=
  match idxOf? pat s with
  | some i => (i : Int)
  | none => -1

/-- JavaScript `lastIndexOf`: last occurrence index, or `-1` when absent. -/
def jsLastIndexOf (s pat : List Char) : Int :=
  match lastIdxOf? pat s with
  | some i => (i : Int)
  | none => -1

/-- JavaScript `String.prototype.substring`: both arguments are clamped to
`[0, length]` and swapped when the first exceeds the second. -/
def jsSubstring (s : List Char) (a b : Int) : List Char :=
  let n : Int := (s.length : Int)
  let a' := max 0 (min a n)
  let b' := max 0 (min b n)
  let lo := min a' b'
  let hi := max a' b'
  (s.take hi.toNat).drop lo.toNat

/-- The JavaScript whitespace class used by `trim`/`trimStart`
(space, tab, line feed, carriage return, vertical tab, form feed,
no-break space, BOM). -/
def isJsWhitespace (c : Char) : Bool :=
  c == ' ' || c == '\t' || c == '\n' || c == '\r' ||
  c == '\x0b' || c == '\x0c' || c == ' ' || c == '﻿'

/-- JavaScript `String.prototype.trimStart`. -/
def jsTrimStart (s : List Char) : List Char :=
  s.dropWhile isJsWhitespace

/-- JavaScript `String.prototype.trim` (both ends). -/
def jsTrim (s : List Char) : List Char :=
  ((s.dropWhile isJsWhitespace).reverse.dropWhile isJsWhitespace).reverse

/-- Embedding of `extractXML` from `src/ai.ts`:
```
const openTag = "<" + tag + ">";
const closeTag = "</" + tag + ">";
const start = text.indexOf(openTag) + openTag.length;
const end = text.indexOf(closeTag);
return text.substring(start, end).trimStart();
``` -/
def extractXML (text tag : List Char) : List Char :=
  let openTag : List Char := '<' :: (tag ++ ['>'])
  let closeTag : List Char := '<' :: '/' :: (tag ++ ['>'])
  let s := jsIndexOf text openTag + (openTag.length : Int)
  let e := jsIndexOf text closeTag
  jsTrimStart (jsSubstring text s e)

/-- The literal tag text used by `AIClient.getCommitMessage` in `src/ai.ts`. -/
def commitMessageTag : List Char := "<commitMessage>".data

/-- The extraction performed by `AIClient.getCommitMessage` in `src/ai.ts`:
```
const start = response.indexOf("<commitMessage>") + "<commitMessage>".length;
const end = response.lastIndexOf("<commitMessage>");
return response.substring(start, end);
``` -/
def getCommitMessageExtract (response : List Char) : List Char :=
  let s := jsIndexOf response commitMessageTag + (commitMessageTag.length : Int)
  let e := jsLastIndexOf response commitMessageTag
  jsSubstring response s e


/-! ## Fenced-code stripping (`src/index.ts`, `step`)

`newMainFileText.match(/```go\n([\s\S]*)\n```/)?.[1] ?? newMainFileText`:
the regex is unanchored, so the match starts at the first occurrence of
the opening fence; the capture group is greedy, so it extends to the last
occurrence of the closing fence after it. When no match exists the text
is kept verbatim. -/

/-- The opening fence literal matched by the regex. -/
def openFence : List Char := "```go\n".data

/-- The closing fence literal matched by the regex. -/
def closeFence : List Char := "\n```".data

/-- The text actually written to `main.go` for a replacement text `s`
(`src/index.ts` lines 77-79). -/
def stripFence (s : List Char) : List Char :=
  match idxOf? openFence s with
  | none => s
  | some p =>
    match lastIdxOf? closeFence (s.drop (p + openFence.length)) with
    | none => s
    | some r => (s.drop (p + openFence.length)).take r


/-! ## JSON string encoding (`JSON.stringify` applied to a string)

`src/index.ts` line 84 passes `JSON.stringify(text)` as the per-iteration
commit message, so the message handed to `git commit -m` is the JSON
string literal: wrapped in double quotes, with backslashes, quotes and
control characters escaped. -/

/-- Escape of a single character inside a JSON string literal. -/
def jsonEscapeChar (c : Char) : List Char :=
  if c = '"' then ['\\', '"']
  else if c = '\\' then ['\\', '\\']
  else if c = '\n' then ['\\', 'n']
  else if c = '\r' then ['\\', 'r']
  else if c = '\t' then ['\\', 't']
  else if c = '\x08' then ['\\', 'b']
  else if c = '\x0c' then ['\\', 'f']
  else if c.toNat < 32 then
    ['\\', 'u', '0', '0', (Nat.digitChar (c.toNat / 16)), (Nat.digitChar (c.toNat % 16))]
  else [c]

/-- Result of `JSON.stringify` on a string value: double quotes around the escaped body. -/
def jsonStringifyStr (s : List Char) : List Char :=
  '"' :: ((s.map jsonEscapeChar).flatten ++ ['"'])


/-! ## The convergence loop (`src/index.ts`)

The loop's collaborators (test runner, completion provider, git) are
external; each iteration of `step` is driven by an oracle record holding
the test exit code and, when the tests fail, the provider's response.
The git history relative to the boundary revision is the only state the
claims are about, together with the `main.go` contents. -/

/-- One commit in the version-control history. -/
structure Commit where
  message : String
deriving DecidableEq, Repr

/-- One named section of a streamed provider response.

Modelled from the spec: the streaming variant of `AIClient.getNewCode`
consumed by `src/index.ts` (`for await (const { name, text } of response)`)
is not under `src/`; per the spec it yields `(name, text)` pairs as each
section completes, each name appearing at most once per request. -/
structure RSection where
  name : String
  text : String
deriving DecidableEq, Repr

/-- A provider response as observed by one failing iteration of `step`:
either a stream of named sections, or a provider call that threw
(a `MalformedResponseError` on parse/validation failure, or a transport
failure), carrying the raw diagnostic text. -/
inductive Response where
  | sections (ss : List RSection)
  | malformed (raw : String)
deriving DecidableEq, Repr

/-- Oracle data for one iteration of `step`: the exit code of
`go mod tidy && go test` and the provider response used on failure. -/
structure Iteration where
  exitCode : Nat
  response : Response
deriving DecidableEq, Repr

/-- Loop state: the commits created since the boundary revision (in
creation order) and the current `main.go` text. -/
structure LoopState where
  commits : List Commit
  mainGo : String
deriving DecidableEq, Repr

/-- The `switch (name)` of `src/index.ts` lines 67-87: `plan` is printed,
`code` overwrites `main.go` after fence stripping, `commitMessage` creates
a commit whose message is `JSON.stringify(text)`; other names are ignored. -/
def applySection (st : LoopState) (sec : RSection) : LoopState :=
  if sec.name = "plan" then st
  else if sec.name = "code" then
    { st with mainGo := String.mk (stripFence sec.text.data) }
  else if sec.name = "commitMessage" then
    { st with commits := st.commits ++ [⟨String.mk (jsonStringifyStr sec.text.data)⟩] }
  else st

/-- Folding `applySection` over the whole section stream. -/
def applySections (st : LoopState) (ss : List RSection) : LoopState :=
  ss.foldl applySection st

/-- Number of `commitMessage` sections in a stream — each one creates one
git commit. -/
def commitSectionCount (ss : List RSection) : Nat :=
  (ss.filter (fun s => s.name = "commitMessage")).length

/-- Counters accumulated while the loop is in `Running`. -/
structure RunStats where
  requests : Nat
  commitsCreated : Nat
  failures : Nat
deriving DecidableEq, Repr

/-- Outcome of `while (!(await step(folder, gitRef))) { }`. -/
inductive RunOutcome where
  | stillRunning
  | aborted (raw : String) (stats : RunStats)
  | passed (st : LoopState) (stats : RunStats)
deriving DecidableEq, Repr

/-- Account for one failing iteration (one provider request, the commits
its sections created) on top of the outcome of the remaining iterations. -/
def bumpStats (ss : List RSection) : RunOutcome → RunOutcome
  | .stillRunning => .stillRunning
  | .aborted raw s =>
    .aborted raw ⟨s.requests + 1, s.commitsCreated + commitSectionCount ss, s.failures + 1⟩
  | .passed st' s =>
    .passed st' ⟨s.requests + 1, s.commitsCreated + commitSectionCount ss, s.failures + 1⟩

/-- The `Running` loop of `stepUntilTestsPass` (`src/index.ts` line 26):
`step` returns `true` as soon as the test command exits 0, before any
provider request; on failure it requests a patch, applies the streamed
sections, and returns `false` so the loop re-runs.  A thrown
`MalformedResponseError` is not caught anywhere below `main().catch`
(line 93), so it aborts the loop at once. -/
def runLoop (st : LoopState) : List Iteration → RunOutcome
  | [] => .stillRunning
  | it :: rest =>
    if it.exitCode = 0 then
      .passed st ⟨0, 0, 0⟩
    else
      match it.response with
      | .malformed raw => .aborted raw ⟨1, 0, 1⟩
      | .sections ss => bumpStats ss (runLoop (applySections st ss) rest)

/-- Rendering of `git log -p <boundary>..HEAD`: empty exactly when no
commit lies between the boundary and the head; each commit contributes a
block beginning with the literal `commit`. -/
def renderLog : List Commit → List Char
  | [] => []
  | c :: rest => ("commit\n".data ++ c.message.data ++ ['\n']) ++ renderLog rest

/-- Result of the `Committing` phase. -/
structure CommitPhase where
  summaryRequested : Bool
  squashPerformed : Bool
  final : LoopState
deriving DecidableEq, Repr

/-- The `Committing` phase of `stepUntilTestsPass` (`src/index.ts` lines
29-36): when `gitLog.trim() !== ""`, request a summary message from
`aiClient.getCommitMessage(gitLog)`, then `git reset --soft <boundary>`
and `git commit -m <msg>`, leaving exactly the one new commit after the
boundary; otherwise do nothing. -/
def committing (summarize : List Char → String) (st : LoopState) : CommitPhase :=
  let gitLog := renderLog st.commits
  if jsTrim gitLog = ([] : List Char) then
    ⟨false, false, st⟩
  else
    let msg := summarize gitLog
    ⟨true, true, { st with commits := [⟨msg⟩] }⟩

/-- A whole attempt sequence: run until the tests pass, then squash.
`none` when the iteration oracle is exhausted while still `Running`, or
when the sequence aborted with an error before reaching `Committing`. -/
structure SeqResult where
  running : RunStats
  beforeSquash : LoopState
  phase : CommitPhase
deriving DecidableEq, Repr

/-- Embedding of `stepUntilTestsPass` end to end (`src/index.ts` lines 22-38). -/
def attemptSequence (summarize : List Char → String) (st : LoopState)
    (its : List Iteration) : Option SeqResult :=
  match runLoop st its with
  | .passed st' stats => some ⟨stats, st', committing summarize st'⟩
  | _ => none

/-! ## The watcher (`src/index.ts` lines 40-47)

`runningTestPromise` is a single nullable variable: the callback starts a
new sequence only when the changed file is `main_test.go` and no sequence
is in flight; the variable is reset to `null` when a sequence finishes. -/

/-- Watcher state: whether a sequence is in flight
(`runningTestPromise !== null`) and how many sequences have been started. -/
structure WatcherState where
  running : Bool
  started : Nat
deriving DecidableEq, Repr

/-- Events the watcher state reacts to: a file-system change notification
with the reported filename, or the completion of the in-flight sequence
(`runningTestPromise = null` at the end of `stepUntilTestsPass`). -/
inductive WatchEvent where
  | change (filename : String)
  | seqDone
deriving DecidableEq, Repr

/-- The watch callback of `src/index.ts` lines 40-47 plus the reset at
line 37. -/
def watchStep (st : WatcherState) (e : WatchEvent) : WatcherState :=
  match e with
  | .change fn =>
    if fn = "main_test.go" then
      if st.running then st
      else ⟨true, st.started + 1⟩
    else st
  | .seqDone => ⟨false, st.started⟩


/-! ## Schema-validated parsing (`src/ai.ts`, `getCompletion`, lines 40-57)

When a response schema is supplied, `getCompletion` runs
`JSON.parse(responseText)` and `responseSchema.safeParse(responseObj)`
inside a `try`.  On schema mismatch it logs the raw text and throws; that
throw is caught by the same `catch`, which logs the raw text (again) and
the error, then rethrows.  On a `JSON.parse` exception the `catch` logs
the raw text and the error, then throws.  JSON parsing and zod validation
belong to the runtime, so they enter the model as oracle functions. -/

/-- What the schema branch of `getCompletion` produced: the console lines
it logged, in order, and either the validated value or the error it threw. -/
structure CompletionOutcome (T : Type) where
  logged : List (List Char)
  result : Except String T
deriving Repr

/-- Marker for the `console.log(err)` line. -/
def errLogLine : List Char := "Failed to parse response".data

/-- The schema branch of `getCompletion` (`src/ai.ts` lines 40-57),
with `JSON.parse` and `safeParse` as oracles. -/
def getCompletionParse {J T : Type} (jsonParse : List Char → Option J)
    (validate : J → Option T) (responseText : List Char) : CompletionOutcome T :=
  match jsonParse responseText with
  | none => ⟨[responseText, errLogLine], .error "MalformedResponseError"⟩
  | some j =>
    match validate j with
    | none => ⟨[responseText, responseText, errLogLine], .error "MalformedResponseError"⟩
    | some v => ⟨[], .ok v⟩

/-! ## The spec's reading of fence stripping

For the round-trip comparison demanded by the fence-stripping claim, this
follows the spec's words — strip an *optional leading/trailing* wrapper,
otherwise keep the text verbatim — rather than the source. -/

/-- Follows the spec's words: remove the fenced-code wrapper only when the
whole text is the wrapper around a body; otherwise the text is unchanged. -/
def specStripFence (s : List Char) : List Char :=
  if headMatch openFence s ∧ headMatch closeFence.reverse s.reverse ∧
      openFence.length + closeFence.length ≤ s.length then
    (s.drop openFence.length).take (s.length - openFence.length - closeFence.length)
  else s

/-- Index of the first iteration whose test command exits 0, i.e. the
number of failing test-runner invocations before the first success. -/
def firstPassIdx : List Iteration → Option Nat
  | [] => none
  | it :: rest => if it.exitCode = 0 then some 0 else (firstPassIdx rest).map (· + 1)

/-- A response stream is well formed for commit counting when it yields
the `commitMessage` section exactly once (the spec's section-stream
contract: each name at most once, and every response carries the three
required sections). -/
def responseCommitOnce : Response → Bool
  | .sections ss => commitSectionCount ss == 1
  | .malformed _ => true

/-! # Supporting lemmas -/

/-- Function `headMatch` recognises exactly the occurrence of `p` at the front. -/
theorem headMatch_iff (p : List Char) : ∀ s, headMatch p s = true ↔ ∃ t, s = p ++ t := by
  induction p with
  | nil =>
    intro s
    simp [headMatch]
  | cons a ps ih =>
    intro s
    cases s with
    | nil => simp [headMatch]
    | cons c cs =>
      simp only [headMatch, Bool.and_eq_true, beq_iff_eq, ih, List.cons_append,
        List.cons.injEq]
      constructor
      · rintro ⟨rfl, t, rfl⟩
        exact ⟨t, rfl, rfl⟩
      · rintro ⟨t, rfl, rfl⟩
        exact ⟨rfl, t, rfl⟩

/-- A front occurrence of `p` needs `s` at least as long as `p`. -/
theorem length_le_of_headMatch {p s : List Char} (h : headMatch p s = true) :
    p.length ≤ s.length := by
  obtain ⟨t, rfl⟩ := (headMatch_iff p s).1 h
  simp

/-- When `p` sits at the front, the first occurrence index is 0. -/
theorem idxOf?_of_headMatch (p s : List Char) (h : headMatch p s = true) :
    idxOf? p s = some 0 := by
  cases s <;> simp [idxOf?, h]

/-- Any reported first occurrence is an occurrence. -/
theorem idxOf?_some_decomp (p : List Char) :
    ∀ s i, idxOf? p s = some i → ∃ a b, s = a ++ (p ++ b) := by
  intro s
  induction s with
  | nil =>
    intro i h
    cases p with
    | nil => exact ⟨[], [], rfl⟩
    | cons a ps => simp [idxOf?, headMatch] at h
  | cons c cs ih =>
    intro i h
    rw [idxOf?] at h
    by_cases hm : headMatch p (c :: cs) = true
    · obtain ⟨t, ht⟩ := (headMatch_iff p (c :: cs)).1 hm
      exact ⟨[], t, by simp [ht]⟩
    · rw [if_neg hm] at h
      obtain ⟨j, hj, -⟩ := Option.map_eq_some'.1 h
      obtain ⟨a, b, rfl⟩ := ih j hj
      exact ⟨c :: a, b, rfl⟩

/-- A pattern longer than the text never occurs. -/
theorem lastIdxOf?_eq_none_of_lt (p : List Char) :
    ∀ s : List Char, s.length < p.length → lastIdxOf? p s = none := by
  intro s
  induction s with
  | nil =>
    intro h
    cases p with
    | nil => simp at h
    | cons a ps => simp [lastIdxOf?, headMatch]
  | cons c cs ih =>
    intro h
    have h1 : cs.length < p.length := Nat.lt_of_succ_lt h
    have h2 : headMatch p (c :: cs) = false := by
      by_contra hb
      have hle := length_le_of_headMatch (p := p) (s := c :: cs)
        (eq_true_of_ne_false fun hf => hb hf)
      simp only [List.length_cons] at hle h
      omega
    rw [lastIdxOf?, ih h1, h2]
    simp

/-- The last occurrence of `p` in `xs ++ p` is at index `xs.length`. -/
theorem lastIdxOf?_append_self (p : List Char) (hp : p ≠ []) :
    ∀ xs : List Char, lastIdxOf? p (xs ++ p) = some xs.length := by
  intro xs
  induction xs with
  | nil =>
    cases p with
    | nil => exact absurd rfl hp
    | cons a ps =>
      have hshort : lastIdxOf? (a :: ps) ps = none :=
        lastIdxOf?_eq_none_of_lt (a :: ps) ps (by simp)
      have hself : headMatch (a :: ps) (a :: ps) = true :=
        (headMatch_iff (a :: ps) (a :: ps)).2 ⟨[], by simp⟩
      simp only [List.nil_append, List.length_nil]
      rw [lastIdxOf?, hshort, hself]
      simp
  | cons x xs' ih =>
    simp only [List.cons_append, List.length_cons]
    rw [lastIdxOf?, ih]

/-- Function `jsTrim` yields the empty string exactly when every character is
whitespace. -/
theorem jsTrim_eq_nil_iff (l : List Char) :
    jsTrim l = [] ↔ ∀ x ∈ l, isJsWhitespace x = true := by
  unfold jsTrim
  rw [List.reverse_eq_nil_iff, List.dropWhile_eq_nil_iff]
  constructor
  · intro h x hx
    by_cases hws : isJsWhitespace x = true
    · exact hws
    · have hx' : x ∈ List.dropWhile isJsWhitespace l := by
        have hsplit := List.takeWhile_append_dropWhile (p := isJsWhitespace) (l := l)
        rw [← hsplit] at hx
        rcases List.mem_append.1 hx with hxt | hxd
        · exact absurd (List.mem_takeWhile_imp hxt) hws
        · exact hxd
      exact h x (List.mem_reverse.2 hx')
  · intro h x hx
    rw [List.mem_reverse] at hx
    exact h x ((List.dropWhile_sublist isJsWhitespace).mem hx)

/-- The rendered change log trims to empty exactly when no commit lies
between the boundary and the head. -/
theorem jsTrim_renderLog_eq_nil_iff (cs : List Commit) :
    jsTrim (renderLog cs) = [] ↔ cs = [] := by
  cases cs with
  | nil => simp [renderLog, jsTrim]
  | cons cm rest =>
    simp only [renderLog]
    constructor
    · intro h
      have hall := (jsTrim_eq_nil_iff _).1 h
      have hc : ('c' : Char) ∈ ("commit\n".data ++ cm.message.data ++ ['\n']) ++ renderLog rest := by
        apply List.mem_append_left
        apply List.mem_append_left
        apply List.mem_append_left
        decide
      have := hall 'c' hc
      simp [isJsWhitespace] at this
    · intro h
      exact absurd h (List.cons_ne_nil _ _)

/-- A text missing some character of `pat` contains no occurrence of `pat`. -/
theorem no_occurrence_of_not_mem {s pat : List Char} {c : Char} (hc : c ∈ pat)
    (hs : c ∉ s) : ∀ a b : List Char, s ≠ a ++ (pat ++ b) := by
  intro a b h
  apply hs
  rw [h]
  exact List.mem_append_right a (List.mem_append_left b hc)

/-- A replacement text that is exactly the fenced wrapper around a body
is stripped to that body, whatever the body is. -/
theorem stripFence_wrap (body : List Char) :
    stripFence (openFence ++ (body ++ closeFence)) = body := by
  unfold stripFence
  rw [idxOf?_of_headMatch openFence _
    ((headMatch_iff openFence _).2 ⟨body ++ closeFence, rfl⟩)]
  simp only [Nat.zero_add, List.drop_left]
  rw [lastIdxOf?_append_self closeFence (by decide) body]
  simp [List.take_left]

/-- A replacement text containing no opening fence is written verbatim. -/
theorem stripFence_of_no_occurrence (s : List Char)
    (hs : ∀ a b : List Char, s ≠ a ++ (openFence ++ b)) : stripFence s = s := by
  unfold stripFence
  have : idxOf? openFence s = none := by
    cases hi : idxOf? openFence s with
    | none => rfl
    | some i =>
      obtain ⟨a, b, hab⟩ := idxOf?_some_decomp openFence s i hi
      exact absurd hab (hs a b)
  rw [this]

/-! # Claims -/

/-- C1: for every attempt sequence that reaches `Committing`: if the change
log between the boundary revision and the head is non-empty, a summary
commit message is requested and the history is soft-reset so that exactly
the one new commit carrying that message lies between the boundary and the
new head; if the change log is empty, no squash occurs and the sequence
goes directly to `Done`. -/
theorem c1_squash_invariant (summarize : List Char → String) (st : LoopState)
    (its : List Iteration) (r : SeqResult)
    (h : attemptSequence summarize st its = some r) :
    (r.beforeSquash.commits ≠ [] →
      r.phase.summaryRequested = true ∧
      r.phase.final.commits = [⟨summarize (renderLog r.beforeSquash.commits)⟩] ∧
      r.phase.final.commits.length = 1) ∧
    (r.beforeSquash.commits = [] →
      r.phase.summaryRequested = false ∧ r.phase.squashPerformed = false ∧
      r.phase.final = r.beforeSquash ∧ r.phase.final.commits = []) := by
  unfold attemptSequence at h
  cases hrun : runLoop st its with
  | stillRunning => rw [hrun] at h; exact absurd h (by simp)
  | aborted raw stats => rw [hrun] at h; exact absurd h (by simp)
  | passed st' stats =>
    rw [hrun] at h
    obtain rfl : (⟨stats, st', committing summarize st'⟩ : SeqResult) = r :=
      Option.some.inj h
    constructor
    · intro hne
      have hlog : ¬ jsTrim (renderLog st'.commits) = [] := by
        rw [jsTrim_renderLog_eq_nil_iff]
        exact hne
      show (committing summarize st').summaryRequested = true ∧ _
      unfold committing
      rw [if_neg hlog]
      exact ⟨rfl, rfl, rfl⟩
    · intro hemp
      have hlog : jsTrim (renderLog st'.commits) = [] := by
        rw [jsTrim_renderLog_eq_nil_iff]
        exact hemp
      show (committing summarize st').summaryRequested = false ∧ _
      unfold committing
      rw [if_pos hlog]
      exact ⟨rfl, rfl, rfl, hemp⟩

/-- Witness for C1 on a concrete two-iteration sequence: one failing
iteration creating one commit, then success; the squash leaves exactly the
one summary commit. -/
theorem c1_squash_invariant_witness :
    attemptSequence (fun _ => "squash") ⟨[], "m"⟩
        [⟨1, .sections [⟨"commitMessage", "x"⟩]⟩, ⟨0, .sections []⟩] =
      some ⟨⟨1, 1, 1⟩, ⟨[⟨"\"x\""⟩], "m"⟩, ⟨true, true, ⟨[⟨"squash"⟩], "m"⟩⟩⟩ ∧
    ((true : Bool) = true ∧
      ([⟨"squash"⟩] : List Commit) = [⟨"squash"⟩] ∧
      ([⟨"squash"⟩] : List Commit).length = 1) :=
  ⟨by decide,
   (c1_squash_invariant (fun _ => "squash") ⟨[], "m"⟩
      [⟨1, .sections [⟨"commitMessage", "x"⟩]⟩, ⟨0, .sections []⟩]
      ⟨⟨1, 1, 1⟩, ⟨[⟨"\"x\""⟩], "m"⟩, ⟨true, true, ⟨[⟨"squash"⟩], "m"⟩⟩⟩
      (by decide)).1 (by decide)⟩

/-- C2: when every provider response yields the `commitMessage` section
exactly once, each failing test-runner invocation before the first success
creates exactly one commit, so the number of commits created during
`Running` equals the number of failing invocations before the first
success. -/
theorem c2_commit_per_failure :
    ∀ (its : List Iteration) (st st' : LoopState) (stats : RunStats),
      (∀ it ∈ its, responseCommitOnce it.response = true) →
      runLoop st its = .passed st' stats →
      stats.commitsCreated = stats.failures ∧
        firstPassIdx its = some stats.failures := by
  intro its
  induction its with
  | nil =>
    intro st st' stats hwf h
    simp [runLoop] at h
  | cons it rest ih =>
    intro st st' stats hwf h
    rw [runLoop] at h
    by_cases hex : it.exitCode = 0
    · rw [if_pos hex] at h
      injection h with h1 h2
      subst h2
      simp [firstPassIdx, hex]
    · rw [if_neg hex] at h
      cases hresp : it.response with
      | malformed raw =>
        rw [hresp] at h
        exact absurd h (by simp)
      | sections ss =>
        rw [hresp] at h
        replace h : bumpStats ss (runLoop (applySections st ss) rest) =
            .passed st' stats := h
        cases hrec : runLoop (applySections st ss) rest with
        | stillRunning =>
          rw [hrec] at h
          exact absurd h (by simp [bumpStats])
        | aborted raw s =>
          rw [hrec] at h
          exact absurd h (by simp [bumpStats])
        | passed st'' s =>
          rw [hrec] at h
          simp only [bumpStats] at h
          injection h with h1 h2
          subst h2
          have hwf' : ∀ x ∈ rest, responseCommitOnce x.response = true :=
            fun x hx => hwf x (List.mem_cons_of_mem _ hx)
          obtain ⟨hcc, hfi⟩ := ih (applySections st ss) st'' s hwf' hrec
          have honce : commitSectionCount ss = 1 := by
            have hx := hwf it (List.mem_cons_self it rest)
            rw [hresp] at hx
            simpa [responseCommitOnce] using hx
          constructor
          · show s.commitsCreated + commitSectionCount ss = s.failures + 1
            omega
          · show firstPassIdx (it :: rest) = some (s.failures + 1)
            rw [firstPassIdx, if_neg hex, hfi]
            rfl

/-- Witness for C2: one failing invocation with a single `commitMessage`
section, then success — one commit created, one failure counted. -/
theorem c2_commit_per_failure_witness :
    ((⟨1, 1, 1⟩ : RunStats).commitsCreated = (⟨1, 1, 1⟩ : RunStats).failures ∧
      firstPassIdx [⟨1, .sections [⟨"commitMessage", "m"⟩]⟩,
          ⟨0, .sections [⟨"commitMessage", "z"⟩]⟩] =
        some (⟨1, 1, 1⟩ : RunStats).failures) :=
  c2_commit_per_failure
    [⟨1, .sections [⟨"commitMessage", "m"⟩]⟩, ⟨0, .sections [⟨"commitMessage", "z"⟩]⟩]
    ⟨[], "a"⟩ ⟨[⟨"\"m\""⟩], "a"⟩ ⟨1, 1, 1⟩ (by decide) (by decide)

/-- C3: the code contradicts the claim — on a text containing the open
marker of `plan` but no close marker, `extractXML` yields the non-empty
junk value `"<plan>"` (the prefix up to and including the open marker,
via JavaScript `substring` argument swapping) instead of yielding
nothing. -/
theorem c3_missing_close_marker_yields_junk :
    extractXML "<plan>hello".data "plan".data = "<plan>".data ∧
    extractXML "<plan>hello".data "plan".data ≠ [] := by decide

/-- C4: the code contradicts the claim at the `AIClient.getCommitMessage`
extraction site — on the exact round-trip input
`"<commitMessage>Fix parser</commitMessage>"` it returns the literal open
tag `"<commitMessage>"`, not the wrapped value, because it computes the
end with `lastIndexOf` of the *open* tag. -/
theorem c4_getCommitMessage_returns_open_tag :
    getCommitMessageExtract "<commitMessage>Fix parser</commitMessage>".data =
      "<commitMessage>".data ∧
    getCommitMessageExtract "<commitMessage>Fix parser</commitMessage>".data ≠
      "Fix parser".data := by decide

/-- C5: when the provider response fails JSON parsing or schema
validation, the raw response text is logged before the
`MalformedResponseError` is raised, and the raised error aborts the
attempt-sequence loop at once (no further iteration of the oracle is
consumed). -/
theorem c5_malformed_logged_and_aborts :
    (∀ {J T : Type} (jsonParse : List Char → Option J) (validate : J → Option T)
        (raw : List Char),
      (jsonParse raw = none ∨ ∃ j, jsonParse raw = some j ∧ validate j = none) →
      raw ∈ (getCompletionParse jsonParse validate raw).logged ∧
        (getCompletionParse jsonParse validate raw).result =
          .error "MalformedResponseError") ∧
    (∀ (st : LoopState) (it : Iteration) (rest : List Iteration) (raw : String),
      it.exitCode ≠ 0 → it.response = .malformed raw →
      ∃ stats, runLoop st (it :: rest) = .aborted raw stats) := by
  constructor
  · intro J T jp val raw h
    rcases h with hnone | ⟨j, hj, hval⟩
    · simp [getCompletionParse, hnone]
    · simp [getCompletionParse, hj, hval]
  · intro st it rest raw hex hresp
    refine ⟨⟨1, 0, 1⟩, ?_⟩
    rw [runLoop, if_neg hex, hresp]

/-- Witness for C5: a response no JSON parser accepts is logged and turned
into the error; an iteration whose provider call threw aborts the loop. -/
theorem c5_malformed_logged_and_aborts_witness :
    ("bad".data ∈ (getCompletionParse (fun _ => (none : Option Unit))
        (fun _ => (none : Option Unit)) "bad".data).logged ∧
      (getCompletionParse (fun _ => (none : Option Unit))
        (fun _ => (none : Option Unit)) "bad".data).result =
        .error "MalformedResponseError") ∧
    (∃ stats, runLoop ⟨[], "a"⟩ [⟨1, .malformed "boom"⟩] = .aborted "boom" stats) :=
  ⟨c5_malformed_logged_and_aborts.1 (fun _ => (none : Option Unit))
      (fun _ => (none : Option Unit)) "bad".data (Or.inl rfl),
   c5_malformed_logged_and_aborts.2 ⟨[], "a"⟩ ⟨1, .malformed "boom"⟩ [] "boom"
      (by decide) rfl⟩

/-- C6: per-iteration test failures are recovered locally and drive the
next loop iteration — a trace of failing iterations with section responses
leaves the loop still running, never aborted; any error thrown by the
provider call surfaces immediately and terminates the run, whatever
iterations would have followed. -/
theorem c6_error_propagation :
    (∀ (st : LoopState) (its : List Iteration),
      (∀ it ∈ its, it.exitCode ≠ 0 ∧ ∃ ss, it.response = .sections ss) →
      runLoop st its = .stillRunning) ∧
    (∀ (st : LoopState) (it : Iteration) (rest : List Iteration) (raw : String),
      it.exitCode ≠ 0 → it.response = .malformed raw →
      runLoop st (it :: rest) = .aborted raw ⟨1, 0, 1⟩) := by
  constructor
  · intro st its
    induction its generalizing st with
    | nil => intro _; rfl
    | cons it rest ih =>
      intro hall
      obtain ⟨hex, ss, hresp⟩ := hall it (List.mem_cons_self it rest)
      have hr := ih (applySections st ss) (fun x hx => hall x (List.mem_cons_of_mem _ hx))
      rw [runLoop, if_neg hex, hresp]
      show bumpStats ss (runLoop (applySections st ss) rest) = .stillRunning
      rw [hr]
      rfl
  · intro st it rest raw hex hresp
    rw [runLoop, if_neg hex, hresp]

/-- Witness for C6: a failing iteration keeps the loop running; a thrown
provider error aborts it with the diagnostic text. -/
theorem c6_error_propagation_witness :
    runLoop ⟨[], "a"⟩ [⟨1, .sections [⟨"plan", "p"⟩]⟩] = .stillRunning ∧
    runLoop ⟨[], "a"⟩ [⟨1, .malformed "down"⟩] = .aborted "down" ⟨1, 0, 1⟩ :=
  ⟨c6_error_propagation.1 ⟨[], "a"⟩ [⟨1, .sections [⟨"plan", "p"⟩]⟩]
      (List.forall_mem_singleton.2 ⟨by decide, ⟨[⟨"plan", "p"⟩], rfl⟩⟩),
   c6_error_propagation.2 ⟨[], "a"⟩ ⟨1, .malformed "down"⟩ [] "down" (by decide) rfl⟩

/-- C7: at most one sequence is in flight — a `main_test.go` change
observed while a sequence is running leaves the watcher state unchanged
(the event is dropped, nothing is queued), and a new sequence is started
only from the idle state. -/
theorem c7_watcher_single_flight (st : WatcherState) (fn : String) :
    (st.running = true → watchStep st (.change fn) = st) ∧
    (∀ e : WatchEvent, (watchStep st e).started = st.started + 1 →
      st.running = false ∧ (watchStep st e).running = true) := by
  constructor
  · intro hr
    show (if fn = "main_test.go" then
        (if st.running = true then st else ⟨true, st.started + 1⟩) else st) = st
    by_cases hfn : fn = "main_test.go"
    · rw [if_pos hfn, if_pos hr]
    · rw [if_neg hfn]
  · intro e hs
    cases e with
    | seqDone =>
      replace hs : st.started = st.started + 1 := hs
      omega
    | change fn' =>
      replace hs : (if fn' = "main_test.go" then
          (if st.running = true then st else ⟨true, st.started + 1⟩)
          else st).started = st.started + 1 := hs
      by_cases hfn : fn' = "main_test.go"
      · rw [if_pos hfn] at hs
        by_cases hr : st.running = true
        · rw [if_pos hr] at hs
          omega
        · have hr' : st.running = false := by
            simpa using hr
          refine ⟨hr', ?_⟩
          show (if fn' = "main_test.go" then
              (if st.running = true then st else ⟨true, st.started + 1⟩)
              else st).running = true
          rw [if_pos hfn, if_neg hr]
      · rw [if_neg hfn] at hs
        omega

/-- Witness for C7: with a sequence in flight the change event is dropped;
from idle the same event starts a sequence. -/
theorem c7_watcher_single_flight_witness :
    watchStep ⟨true, 3⟩ (.change "main_test.go") = ⟨true, 3⟩ ∧
    ((⟨false, 3⟩ : WatcherState).running = false ∧
      (watchStep ⟨false, 3⟩ (.change "main_test.go")).running = true) :=
  ⟨(c7_watcher_single_flight ⟨true, 3⟩ "main_test.go").1 rfl,
   (c7_watcher_single_flight ⟨false, 3⟩ "main_test.go").2
      (.change "main_test.go") (by decide)⟩

/-- C8: when the first test-runner invocation of a sequence succeeds, zero
patch-generation requests are made and the sequence proceeds directly to
the squash check with its state untouched. -/
theorem c8_idempotent_success (summarize : List Char → String) (st : LoopState)
    (it : Iteration) (rest : List Iteration) (h : it.exitCode = 0) :
    runLoop st (it :: rest) = .passed st ⟨0, 0, 0⟩ ∧
    attemptSequence summarize st (it :: rest) =
      some ⟨⟨0, 0, 0⟩, st, committing summarize st⟩ := by
  have h1 : runLoop st (it :: rest) = .passed st ⟨0, 0, 0⟩ := by
    rw [runLoop, if_pos h]
  refine ⟨h1, ?_⟩
  unfold attemptSequence
  rw [h1]

/-- Witness for C8: a sequence whose first invocation passes makes zero
requests and goes straight to the squash check. -/
theorem c8_idempotent_success_witness :
    runLoop ⟨[], "a"⟩ [⟨0, .sections []⟩] = .passed ⟨[], "a"⟩ ⟨0, 0, 0⟩ ∧
    attemptSequence (fun _ => "s") ⟨[], "a"⟩ [⟨0, .sections []⟩] =
      some ⟨⟨0, 0, 0⟩, ⟨[], "a"⟩, committing (fun _ => "s") ⟨[], "a"⟩⟩ :=
  c8_idempotent_success (fun _ => "s") ⟨[], "a"⟩ ⟨0, .sections []⟩ [] rfl

/-- C9 counterexample: for the replacement text `"A```go\nB\n```"` the
fence is neither leading nor trailing, so under the claim the text
would be written verbatim; the code instead writes only the capture
`"B"`, dropping the surrounding text. -/
theorem c9_fence_strip_counterexample :
    stripFence "A```go\nB\n```".data ≠ specStripFence "A```go\nB\n```".data ∧
    stripFence "A```go\nB\n```".data = "B".data ∧
    specStripFence "A```go\nB\n```".data = "A```go\nB\n```".data := by decide

/-- C9 (amended): a replacement text that is exactly a fenced wrapper
around a body is written as that body; a replacement text containing no
opening fence is written verbatim; and in general the code writes the
capture between the first opening fence and the last following closing
fence, dropping surrounding text. -/
theorem c9_fence_strip_amended (body s : List Char)
    (hs : ∀ a b : List Char, s ≠ a ++ (openFence ++ b)) :
    stripFence (openFence ++ (body ++ closeFence)) = body ∧
    stripFence s = s ∧
    stripFence "A```go\nB\n```".data = "B".data :=
  ⟨stripFence_wrap body, stripFence_of_no_occurrence s hs, by decide⟩

/-- Witness for C9: an exactly fenced body loses its fences, fence-free
text is written verbatim, and a mid-text fence keeps only the capture. -/
theorem c9_fence_strip_amended_witness :
    stripFence (openFence ++ ("code".data ++ closeFence)) = "code".data ∧
    stripFence "fn main()".data = "fn main()".data ∧
    stripFence "A```go\nB\n```".data = "B".data :=
  c9_fence_strip_amended "code".data "fn main()".data
    (no_occurrence_of_not_mem (c := 'g') (by decide) (by decide))

/-- C10: each `Running`-phase commit carries the JSON string encoding of
the section text (quoted, control characters escaped) rather than the raw
text, while the single squash commit carries the raw summary returned by
the provider, unencoded. -/
theorem c10_commit_message_encoding (st : LoopState) (sec : RSection)
    (hname : sec.name = "commitMessage") (summarize : List Char → String)
    (st' : LoopState) (hne : st'.commits ≠ []) :
    (applySection st sec).commits =
      st.commits ++ [⟨String.mk (jsonStringifyStr sec.text.data)⟩] ∧
    jsonStringifyStr "a\nb".data = "\"a\\nb\"".data ∧
    jsonStringifyStr "a\nb".data ≠ "a\nb".data ∧
    (committing summarize st').final.commits =
      [⟨summarize (renderLog st'.commits)⟩] := by
  refine ⟨?_, by decide, by decide, ?_⟩
  · unfold applySection
    rw [hname]
    simp
  · have hlog : ¬ jsTrim (renderLog st'.commits) = [] := by
      rw [jsTrim_renderLog_eq_nil_iff]
      exact hne
    unfold committing
    rw [if_neg hlog]

/-- Witness for C10: the per-iteration commit message is the JSON-encoded
section text; the squash commit message is the raw summary. -/
theorem c10_commit_message_encoding_witness :
    (applySection ⟨[], "a"⟩ ⟨"commitMessage", "hi"⟩).commits =
      ([] : List Commit) ++ [⟨String.mk (jsonStringifyStr "hi".data)⟩] ∧
    jsonStringifyStr "a\nb".data = "\"a\\nb\"".data ∧
    jsonStringifyStr "a\nb".data ≠ "a\nb".data ∧
    (committing (fun _ => "raw") ⟨[⟨"c1"⟩], "a"⟩).final.commits = [⟨"raw"⟩] :=
  c10_commit_message_encoding ⟨[], "a"⟩ ⟨"commitMessage", "hi"⟩ rfl
    (fun _ => "raw") ⟨[⟨"c1"⟩], "a"⟩ (by decide)

end Tddai
